import Mathlib

/-!
# Verification of the MiningBandit environment

A shallow embedding of `include/AIToolbox/Factored/Bandit/Environments/MiningProblem.hpp`.
The repository ships only the header (declarations plus documentation); the
translation below therefore models the operations from the header's
documentation and the specification, using exact rationals for the C++
`double` values.
-/

namespace Mining

/-- Modelled from the spec: the body of the per-mine production formula is not
under `src/` (only the header documenting it is).  Header lines 31-33:
the mineral amount is `0` if no workers are sent, `productivity * 1.03^workers`
otherwise. -/
def miningOutput (p : ℚ) (w : ℕ) : ℚ :=
  if w = 0 then 0 else p * (103 / 100 : ℚ) ^ w

/-- Modelled from the spec: the `MiningBandit` constructor body is not under
`src/`.  The immutable instance parameters, in the order of the constructor:
the action space (one alphabet size per village), the workers of each village,
and the productivity of each mine. -/
structure MiningBandit where
  A : List ℕ
  workersPerVillage_ : List ℕ
  productivityPerMine_ : List ℚ

namespace MiningBandit

/-- Number of villages: one local action per village. -/
def numVillages (b : MiningBandit) : ℕ := b.A.length

/-- Number of mines: one productivity entry per mine. -/
def numMines (b : MiningBandit) : ℕ := b.productivityPerMine_.length

/-- Modelled from the spec: local action `k` of village `i` designates mine
`i + k` (header lines 27-29).  Total workers assigned to mine `m` by joint
action `a`: the sum of `workersPerVillage_ i` over the villages whose choice
routes to `m`. -/
def workersAtMine (b : MiningBandit) (a : List ℕ) (m : ℕ) : ℕ :=
  (((List.range b.numVillages).filter fun i => decide (i + a.getD i 0 = m)).map
    fun i => b.workersPerVillage_.getD i 0).sum

/-- Modelled from the spec: total deterministic mineral output of a joint
action, the sum over the mines of the production model (spec §4.2). -/
def totalOutput (b : MiningBandit) (a : List ℕ) : ℚ :=
  ((List.range b.numMines).map fun m =>
    miningOutput (b.productivityPerMine_.getD m 0) (b.workersAtMine a m)).sum

end MiningBandit

/-- All joint actions of an action space: one local action below the alphabet
size, per village, enumerated with earlier villages most significant and each
local index increasing. -/
def jointActions : List ℕ → List (List ℕ)
  | [] => [[]]
  | n :: rest => (List.range n).flatMap fun k => (jointActions rest).map fun t => k :: t

/-- A joint action is valid iff it has one in-alphabet local action per
village; this is exactly membership in the enumeration. -/
theorem mem_jointActions_iff (As : List ℕ) (a : List ℕ) :
    a ∈ jointActions As ↔
      a.length = As.length ∧ ∀ i < As.length, a.getD i 0 < As.getD i 0 := by
  induction As generalizing a with
  | nil =>
    constructor
    · intro h
      simp only [jointActions, List.mem_singleton] at h
      subst h; simp
    · intro h
      have := List.eq_nil_of_length_eq_zero h.1
      simp [jointActions, this]
  | cons n rest ih =>
    simp only [jointActions, List.mem_flatMap, List.mem_map, List.mem_range]
    constructor
    · rintro ⟨k, hk, t, ht, rfl⟩
      obtain ⟨hlen, hbound⟩ := (ih t).mp ht
      refine ⟨by simp [hlen], ?_⟩
      intro i hi
      cases i with
      | zero => simpa using hk
      | succ j =>
        simp only [List.getD_cons_succ]
        exact hbound j (Nat.lt_of_succ_lt_succ hi)
    · rintro ⟨hlen, hbound⟩
      cases a with
      | nil => simp at hlen
      | cons k t =>
        refine ⟨k, by simpa using hbound 0 (Nat.succ_pos _), t, ?_, rfl⟩
        refine (ih t).mpr ⟨by simpa using hlen, ?_⟩
        intro i hi
        simpa using hbound (i + 1) (Nat.succ_lt_succ hi)

/-- One step of the construction-time maximization: keep the incumbent unless
the candidate is strictly better, so the first maximizer found is kept. -/
def pickBetter (f : List ℕ → ℚ) (best : List ℕ × ℚ) (x : List ℕ) : List ℕ × ℚ :=
  if f x > best.2 then (x, f x) else best

theorem foldl_pickBetter_spec (f : List ℕ → ℚ) (l : List (List ℕ))
    (init : List ℕ × ℚ) (hinit : init.2 = f init.1) :
    (l.foldl (pickBetter f) init).2 = f (l.foldl (pickBetter f) init).1 ∧
    (l.foldl (pickBetter f) init = init ∨ (l.foldl (pickBetter f) init).1 ∈ l) ∧
    init.2 ≤ (l.foldl (pickBetter f) init).2 ∧
    ∀ x ∈ l, f x ≤ (l.foldl (pickBetter f) init).2 := by
  induction l generalizing init with
  | nil => exact ⟨hinit, Or.inl rfl, le_refl _, by simp⟩
  | cons x xs ih =>
    have hstep : (pickBetter f init x).2 = f (pickBetter f init x).1 := by
      unfold pickBetter; split <;> simp [hinit]
    have hmono : init.2 ≤ (pickBetter f init x).2 := by
      unfold pickBetter; split <;> simp_all [le_of_lt]
    have hx : f x ≤ (pickBetter f init x).2 := by
      unfold pickBetter; split
      · simp
      · simp only [not_lt] at *; assumption
    obtain ⟨h1, h2, h3, h4⟩ := ih (pickBetter f init x) hstep
    simp only [List.foldl_cons]
    refine ⟨h1, ?_, le_trans hmono h3, ?_⟩
    · rcases h2 with h2 | h2
      · rw [h2]
        unfold pickBetter; split
        · exact Or.inr (List.mem_cons_self _ _)
        · exact Or.inl rfl
      · exact Or.inr (List.mem_cons_of_mem _ h2)
    · intro y hy
      rcases List.mem_cons.mp hy with rfl | hy
      · exact le_trans hx h3
      · exact h4 y hy

namespace MiningBandit

/-- Modelled from the spec: the construction-time optimizer body is not under
`src/`.  Spec §4.3: compute, once, the joint action maximizing the total
deterministic output together with that maximum value, breaking ties by
keeping the first maximizer found in increasing-action-index order. -/
def bestAction (b : MiningBandit) : List ℕ × ℚ :=
  match jointActions b.A with
  | [] => ([], 0)
  | a :: rest => rest.foldl (pickBetter b.totalOutput) (a, b.totalOutput a)

/-- The optimal joint action cached at construction. -/
def optimal_ (b : MiningBandit) : List ℕ := b.bestAction.1

/-- The normalization constant cached at construction: the maximum total
deterministic output. -/
def rewardNorm_ (b : MiningBandit) : ℚ := b.bestAction.2

/-- Accessor for the cached optimal action. -/
def getOptimalAction (b : MiningBandit) : List ℕ := b.optimal_

/-- Accessor for the action space. -/
def getA (b : MiningBandit) : List ℕ := b.A

/-- Modelled from the spec: the body of `getRegret` is not under `src/`.
Spec §4.5: `getRegret(a) = rewardNorm_ - totalDeterministicOutput(a)`, a pure
computation from the production model. -/
def getRegret (b : MiningBandit) (a : List ℕ) : ℚ :=
  b.rewardNorm_ - b.totalOutput a

theorem bestAction_spec (b : MiningBandit) (h : jointActions b.A ≠ []) :
    b.optimal_ ∈ jointActions b.A ∧
    b.totalOutput b.optimal_ = b.rewardNorm_ ∧
    ∀ a ∈ jointActions b.A, b.totalOutput a ≤ b.rewardNorm_ := by
  cases hJ : jointActions b.A with
  | nil => exact absurd hJ h
  | cons a0 rest =>
    have hdef : b.bestAction = rest.foldl (pickBetter b.totalOutput) (a0, b.totalOutput a0) := by
      unfold bestAction
      rw [hJ]
    obtain ⟨h1, h2, h3, h4⟩ :=
      foldl_pickBetter_spec b.totalOutput rest (a0, b.totalOutput a0) rfl
    rw [← hdef] at h1 h2 h3 h4
    refine ⟨?_, ?_, ?_⟩
    · show b.bestAction.1 ∈ a0 :: rest
      rcases h2 with h2 | h2
      · rw [h2]; exact List.mem_cons_self _ _
      · exact List.mem_cons_of_mem _ h2
    · exact h1.symm
    · intro a ha
      show b.totalOutput a ≤ b.bestAction.2
      rcases List.mem_cons.mp ha with rfl | ha
      · exact h3
      · exact h4 a ha

end MiningBandit

/-- The example instance of spec §8: two villages with workers `[3, 2]`, five
mines of productivity `1/10` each, both villages reaching 4 mines. -/
def bex : MiningBandit :=
  ⟨[4, 4], [3, 2], [1/10, 1/10, 1/10, 1/10, 1/10]⟩

/-- C1: `rewardNorm_` computed at construction equals the exact maximum, over
all valid joint actions, of the total deterministic mineral output, the stored
action `optimal_` attains that maximum, and `getRegret (getOptimalAction) = 0`
exactly. -/
theorem C1_rewardNorm_exact_max (b : MiningBandit) (h : jointActions b.A ≠ []) :
    b.optimal_ ∈ jointActions b.A ∧
    b.totalOutput b.optimal_ = b.rewardNorm_ ∧
    (∀ a ∈ jointActions b.A, b.totalOutput a ≤ b.rewardNorm_) ∧
    b.getRegret b.getOptimalAction = 0 := by
  obtain ⟨h1, h2, h3⟩ := MiningBandit.bestAction_spec b h
  refine ⟨h1, h2, h3, ?_⟩
  show b.rewardNorm_ - b.totalOutput b.optimal_ = 0
  rw [h2, sub_self]

/-- Witness for C1 on the spec §8 example instance. -/
theorem C1_rewardNorm_exact_max_witness :
    bex.optimal_ ∈ jointActions bex.A ∧
    bex.totalOutput bex.optimal_ = bex.rewardNorm_ ∧
    (∀ a ∈ jointActions bex.A, bex.totalOutput a ≤ bex.rewardNorm_) ∧
    bex.getRegret bex.getOptimalAction = 0 :=
  C1_rewardNorm_exact_max bex (by decide)

/-- C2: every valid joint action has nonnegative regret; equivalently,
`rewardNorm_` bounds the total deterministic output of every valid joint
action from above. -/
theorem C2_regret_nonneg (b : MiningBandit) (a : List ℕ)
    (ha : a ∈ jointActions b.A) :
    0 ≤ b.getRegret a ∧ b.totalOutput a ≤ b.rewardNorm_ := by
  obtain ⟨-, -, h3⟩ := MiningBandit.bestAction_spec b (List.ne_nil_of_mem ha)
  have hle := h3 a ha
  exact ⟨sub_nonneg.mpr hle, hle⟩

/-- Witness for C2 on the spec §8 example instance at action `[1, 2]`. -/
theorem C2_regret_nonneg_witness :
    0 ≤ bex.getRegret [1, 2] ∧ bex.totalOutput [1, 2] ≤ bex.rewardNorm_ :=
  C2_regret_nonneg bex [1, 2] (by decide)

/-- C4: the production function yields `0` at zero workers and
`productivity * 1.03 ^ workers` at positive worker counts; in particular a
mine with zero assigned workers under a joint action contributes exactly `0`
to the total. -/
theorem C4_production_zero_workers (p : ℚ) (w : ℕ) (b : MiningBandit)
    (a : List ℕ) (m : ℕ) (hw : 0 < w) (hz : b.workersAtMine a m = 0) :
    miningOutput p 0 = 0 ∧
    miningOutput p w = p * (103 / 100 : ℚ) ^ w ∧
    miningOutput (b.productivityPerMine_.getD m 0) (b.workersAtMine a m) = 0 := by
  refine ⟨by simp [miningOutput], ?_, ?_⟩
  · rw [miningOutput, if_neg (Nat.pos_iff_ne_zero.mp hw)]
  · rw [hz, miningOutput, if_pos rfl]

/-- Witness for C4: on the example instance, action `[0, 0]` sends no workers
to mine 4. -/
theorem C4_production_zero_workers_witness :
    miningOutput 1 0 = 0 ∧
    miningOutput 1 1 = 1 * (103 / 100 : ℚ) ^ 1 ∧
    miningOutput (bex.productivityPerMine_.getD 4 0) (bex.workersAtMine [0, 0] 4) = 0 :=
  C4_production_zero_workers 1 1 bex [0, 0] 4 (by decide) (by decide)

/-- Counterexample to C5 as stated: at productivity `0` the output is `0` for
every worker count, so it is not strictly increasing for *every* fixed
productivity value. -/
theorem C5_counterexample : ¬ miningOutput 0 0 < miningOutput 0 1 := by
  simp [miningOutput]

/-- C5 (amended): for every fixed *positive* productivity, the production
output is strictly increasing in the assigned worker count. -/
theorem C5_output_strict_mono (p : ℚ) (hp : 0 < p) (w1 w2 : ℕ) (h : w1 < w2) :
    miningOutput p w1 < miningOutput p w2 := by
  have hbase : (1 : ℚ) < 103 / 100 := by norm_num
  have hw2 : w2 ≠ 0 := Nat.pos_iff_ne_zero.mp (Nat.lt_of_le_of_lt (Nat.zero_le _) h)
  rw [miningOutput, miningOutput, if_neg hw2]
  by_cases h1 : w1 = 0
  · rw [if_pos h1]
    positivity
  · rw [if_neg h1]
    exact mul_lt_mul_of_pos_left (pow_lt_pow_right₀ hbase h) hp

/-- Witness for the amended C5 at productivity `1`, worker counts `1 < 2`. -/
theorem C5_output_strict_mono_witness : miningOutput 1 1 < miningOutput 1 2 :=
  C5_output_strict_mono 1 (by decide) 1 2 (by decide)

/-- Modelled from the spec: the pseudo-random engine itself is an external
collaborator (spec §1, out of scope); modelled as a linear congruential
generator over ℕ. -/
def lcgNext (s : ℕ) : ℕ := (s * 1103515245 + 12345) % 2 ^ 31

/-- Uniform integer draw in `[lo, hi]`, advancing the engine state. -/
def uniformNat (lo hi s : ℕ) : ℕ × ℕ :=
  (lo + lcgNext s % (hi - lo + 1), lcgNext s)

/-- A Bernoulli draw of success probability `p`, advancing the engine state. -/
def bernoulliDraw (p : ℚ) (s : ℕ) : Bool × ℕ :=
  (decide ((lcgNext s % 1024 : ℚ) / 1024 < p), lcgNext s)

/-- One Bernoulli outcome (as `0`/`1`) per probability, threading the engine
state through the draws. -/
def sampleBernoullis : List ℚ → ℕ → List ℚ × ℕ
  | [], s => ([], s)
  | p :: ps, s =>
    let r := bernoulliDraw p s
    let rest := sampleBernoullis ps r.2
    ((if r.1 then 1 else 0) :: rest.1, rest.2)

theorem sampleBernoullis_spec (ps : List ℚ) (s : ℕ) :
    (sampleBernoullis ps s).1.length = ps.length ∧
    ∀ x ∈ (sampleBernoullis ps s).1, x = 0 ∨ x = 1 := by
  induction ps generalizing s with
  | nil => simp [sampleBernoullis]
  | cons p ps ih =>
    obtain ⟨h1, h2⟩ := ih (bernoulliDraw p s).2
    simp only [sampleBernoullis]
    refine ⟨by simp [h1], ?_⟩
    intro x hx
    rcases List.mem_cons.mp hx with rfl | hx
    · split
      · right; rfl
      · left; rfl
    · exact h2 x hx

/-- Modelled from the spec: the instance's mutable internals (header lines
134-135): the per-mine reward scratch buffer `helper_` and the random engine
`rand_`, the engine modelled as a pure state in ℕ. -/
structure BanditState where
  helper_ : List ℚ
  rand_ : ℕ

namespace MiningBandit

/-- Modelled from the spec: the body of `computeProbabilities` is not under
`src/`.  Header lines 116-123 and spec §4.4: the per-mine Bernoulli reward
probabilities for a joint action are the per-mine deterministic outputs
divided by `rewardNorm_`. -/
def computeProbabilities (b : MiningBandit) (a : List ℕ) : List ℚ :=
  (List.range b.numMines).map fun m =>
    miningOutput (b.productivityPerMine_.getD m 0) (b.workersAtMine a m) / b.rewardNorm_

/-- Modelled from the spec: the body of `sampleR` is not under `src/`.
Spec §4.4: compute the per-mine Bernoulli probabilities, draw one outcome per
mine with the instance's private engine, write the `0`/`1` outcomes into the
reward buffer and return them. -/
def sampleR (b : MiningBandit) (a : List ℕ) (st : BanditState) :
    List ℚ × BanditState :=
  let r := sampleBernoullis (b.computeProbabilities a) st.rand_
  (r.1, ⟨r.1, r.2⟩)

/-- Modelled from the spec: spec §4.5 states that `getRegret` "never
touch[es] the random engine or the reward buffer"; as a state operation it
returns the pure regret value and passes the state through unchanged. -/
def getRegretOp (b : MiningBandit) (a : List ℕ) (st : BanditState) :
    ℚ × BanditState :=
  (b.getRegret a, st)

/-- Modelled from the spec: `villagesPerMine_` is built at construction;
header lines 23-25: village `i` is connected to the mines from `i` onwards,
reaching `A i` of them, so mine `m` is fed by the villages `i` with
`i ≤ m < i + A i`. -/
def villagesPerMine_ (b : MiningBandit) (m : ℕ) : List ℕ :=
  (List.range b.numVillages).filter fun i => decide (i ≤ m ∧ m < i + b.A.getD i 0)

/-- Accessor returning, for each mine, the villages connected to it. -/
def getGroups (b : MiningBandit) : List (List ℕ) :=
  (List.range b.numMines).map b.villagesPerMine_

end MiningBandit

/-- C6: for every valid joint action, `sampleR` returns a reward vector of
length equal to the mine count whose entries are all `0` or `1`. -/
theorem C6_sampleR_shape (b : MiningBandit) (a : List ℕ) (st : BanditState)
    (_ha : a ∈ jointActions b.A) :
    (b.sampleR a st).1.length = b.numMines ∧
    ∀ x ∈ (b.sampleR a st).1, x = 0 ∨ x = 1 := by
  obtain ⟨h1, h2⟩ :=
    sampleBernoullis_spec (b.computeProbabilities a) st.rand_
  refine ⟨?_, h2⟩
  show (sampleBernoullis (b.computeProbabilities a) st.rand_).1.length = b.numMines
  rw [h1]
  simp [MiningBandit.computeProbabilities]

/-- Witness for C6 on the spec §8 example instance at action `[0, 1]`. -/
theorem C6_sampleR_shape_witness :
    (bex.sampleR [0, 1] ⟨[], 7⟩).1.length = bex.numMines ∧
    ∀ x ∈ (bex.sampleR [0, 1] ⟨[], 7⟩).1, x = 0 ∨ x = 1 :=
  C6_sampleR_shape bex [0, 1] ⟨[], 7⟩ (by decide)

/-- C9: `getRegret` leaves the engine state and the reward buffer unchanged,
returns the pure value `rewardNorm_ - totalOutput a`, and a `getRegret` call
never affects a subsequent `sampleR` outcome. -/
theorem C9_getRegret_frame (b : MiningBandit) (a a' : List ℕ)
    (st : BanditState) (_ha : a ∈ jointActions b.A) :
    (b.getRegretOp a st).2 = st ∧
    (b.getRegretOp a st).1 = b.rewardNorm_ - b.totalOutput a ∧
    b.sampleR a' (b.getRegretOp a st).2 = b.sampleR a' st :=
  ⟨rfl, rfl, rfl⟩

/-- Witness for C9 on the spec §8 example instance. -/
theorem C9_getRegret_frame_witness :
    (bex.getRegretOp [3, 3] ⟨[], 5⟩).2 = ⟨[], 5⟩ ∧
    (bex.getRegretOp [3, 3] ⟨[], 5⟩).1 = bex.rewardNorm_ - bex.totalOutput [3, 3] ∧
    bex.sampleR [0, 0] (bex.getRegretOp [3, 3] ⟨[], 5⟩).2 = bex.sampleR [0, 0] ⟨[], 5⟩ :=
  C9_getRegret_frame bex [3, 3] [0, 0] ⟨[], 5⟩ (by decide)

/-- C10: under the documented connectivity rule (each village reaches at
least 2 mines, the last village exactly 4, and there are `V + 3` mines),
every mine is connected to at least one village: no entry of `getGroups` is
empty. -/
theorem C10_no_empty_group (b : MiningBandit)
    (hV : 1 ≤ b.numVillages)
    (hA : ∀ i < b.numVillages, 2 ≤ b.A.getD i 0)
    (hlast : b.A.getD (b.numVillages - 1) 0 = 4)
    (hM : b.numMines = b.numVillages + 3) :
    ∀ g ∈ b.getGroups, g ≠ [] := by
  intro g hg
  simp only [MiningBandit.getGroups, List.mem_map, List.mem_range] at hg
  obtain ⟨m, hm, rfl⟩ := hg
  rw [hM] at hm
  have hmem : min m (b.numVillages - 1) ∈ b.villagesPerMine_ m := by
    unfold MiningBandit.villagesPerMine_
    rw [List.mem_filter]
    have hiV : min m (b.numVillages - 1) < b.numVillages :=
      lt_of_le_of_lt (min_le_right _ _) (Nat.sub_lt hV one_pos)
    refine ⟨List.mem_range.mpr hiV, ?_⟩
    rw [decide_eq_true_iff]
    refine ⟨min_le_left _ _, ?_⟩
    rcases le_or_lt m (b.numVillages - 1) with hcase | hcase
    · rw [min_eq_left hcase]
      have := hA m (lt_of_le_of_lt hcase (Nat.sub_lt hV one_pos))
      omega
    · rw [min_eq_right (le_of_lt hcase)]
      rw [hlast]
      omega
  exact List.ne_nil_of_mem hmem

/-- Witness for C10 on the spec §8 example instance, at the group of mine 2. -/
theorem C10_no_empty_group_witness : bex.villagesPerMine_ 2 ≠ [] :=
  C10_no_empty_group bex (by decide) (by decide) (by decide) (by decide)
    (bex.villagesPerMine_ 2) (by decide)

/-- A local reward rule: the villages it constrains, one local action per
such village, and the deterministic reward value of that configuration. -/
structure QFunctionRule where
  agents : List ℕ
  action : List ℕ
  value : ℚ

/-- All combinations of local actions of the given villages, each village `i`
choosing below its own alphabet size `A i`. -/
def partialActions (A : List ℕ) : List ℕ → List (List ℕ)
  | [] => [[]]
  | i :: rest => (List.range (A.getD i 0)).flatMap fun k =>
      (partialActions A rest).map fun t => k :: t

theorem partialActions_eq_jointActions (A : List ℕ) :
    ∀ g : List ℕ, partialActions A g = jointActions (g.map fun i => A.getD i 0) := by
  intro g
  induction g with
  | nil => rfl
  | cons i rest ih => simp only [partialActions, jointActions, List.map_cons, ih]

theorem jointActions_nodup : ∀ As : List ℕ, (jointActions As).Nodup := by
  intro As
  induction As with
  | nil => simp [jointActions]
  | cons n rest ih =>
    simp only [jointActions]
    rw [List.nodup_flatMap]
    constructor
    · intro k _
      exact ih.map fun t t' h => List.tail_eq_of_cons_eq h
    · have hpair := List.pairwise_lt_range n
      refine hpair.imp ?_
      intro k k' hkk x hx hx'
      obtain ⟨t, -, rfl⟩ := List.mem_map.mp hx
      obtain ⟨t', -, heq⟩ := List.mem_map.mp hx'
      exact absurd (List.head_eq_of_cons_eq heq.symm) (Nat.ne_of_lt hkk)

theorem filter_eq_singleton_of_nodup :
    ∀ (l : List (List ℕ)) (x : List ℕ), l.Nodup → x ∈ l →
      l.filter (fun y => decide (y = x)) = [x] := by
  intro l
  induction l with
  | nil => intro x _ hx; exact absurd hx (List.not_mem_nil x)
  | cons c l ih =>
    intro x hnd hx
    rw [List.filter_cons]
    by_cases hc : c = x
    · subst hc
      rw [if_pos (by simp)]
      have hnotmem : c ∉ l := (List.nodup_cons.mp hnd).1
      have : l.filter (fun y => decide (y = c)) = [] := by
        rw [List.filter_eq_nil_iff]
        intro y hy
        simp only [decide_eq_true_eq]
        intro h; exact hnotmem (h ▸ hy)
      rw [this]
    · rw [if_neg (by simpa using hc)]
      rcases List.mem_cons.mp hx with h | h
      · exact absurd h.symm hc
      · exact ih x (List.nodup_cons.mp hnd).2 h

/-- The restriction of a joint action to a group of villages: the local
action of each village in the group, in group order. -/
def restrictAction (a g : List ℕ) : List ℕ := g.map fun i => a.getD i 0

theorem restrictAction_mem_partialActions (A a : List ℕ) (g : List ℕ)
    (hb : ∀ i ∈ g, a.getD i 0 < A.getD i 0) :
    restrictAction a g ∈ partialActions A g := by
  rw [partialActions_eq_jointActions, mem_jointActions_iff]
  constructor
  · simp [restrictAction]
  · intro j hj
    rw [List.length_map] at hj
    have h1 : (restrictAction a g).getD j 0 = a.getD (g.getD j 0) 0 := by
      rw [restrictAction, List.getD_eq_getElem?_getD, List.getElem?_map]
      rw [List.getElem?_eq_getElem hj]
      simp [List.getD_eq_getElem?_getD, List.getElem?_eq_getElem hj]
    have h2 : (g.map fun i => A.getD i 0).getD j 0 = A.getD (g.getD j 0) 0 := by
      rw [List.getD_eq_getElem?_getD, List.getElem?_map, List.getElem?_eq_getElem hj]
      simp [List.getD_eq_getElem?_getD, List.getElem?_eq_getElem hj]
    rw [h1, h2]
    refine hb _ ?_
    rw [List.getD_eq_getElem?_getD, List.getElem?_eq_getElem hj, Option.getD_some]
    exact List.getElem_mem hj

namespace MiningBandit

/-- Workers contributed to mine `m` by the villages of group `g` when they
take the local actions `pa` (positionally). -/
def partialWorkers (b : MiningBandit) (g pa : List ℕ) (m : ℕ) : ℕ :=
  (((g.zip pa).filter fun p => decide (p.1 + p.2 = m)).map
    fun p => b.workersPerVillage_.getD p.1 0).sum

/-- Modelled from the spec: the body of `getDeterministicRules` is not under
`src/`.  Spec §4.6: for a mine, for every combination of local actions of the
villages connected to it, a rule associating that partial action with the
mine's deterministic output under that configuration. -/
def rulesForMine (b : MiningBandit) (m : ℕ) : List QFunctionRule :=
  (partialActions b.A (b.villagesPerMine_ m)).map fun pa =>
    ⟨b.villagesPerMine_ m, pa,
      miningOutput (b.productivityPerMine_.getD m 0)
        (b.partialWorkers (b.villagesPerMine_ m) pa m)⟩

/-- The full exported rule list: the per-mine rules of every mine. -/
def getDeterministicRules (b : MiningBandit) : List QFunctionRule :=
  (List.range b.numMines).flatMap b.rulesForMine

/-- The rules of mine `m` whose partial action agrees with the restriction of
the joint action `a` to the mine's connected villages. -/
def matchingRules (b : MiningBandit) (a : List ℕ) (m : ℕ) : List QFunctionRule :=
  (b.rulesForMine m).filter fun r => decide (r.action = restrictAction a r.agents)

end MiningBandit

/-- Draw `n` uniform integers in `[lo, hi]`, threading the engine state. -/
def drawNats (lo hi : ℕ) : ℕ → ℕ → List ℕ × ℕ
  | 0, s => ([], s)
  | n + 1, s =>
    let r := uniformNat lo hi s
    let rest := drawNats lo hi n r.2
    (r.1 :: rest.1, rest.2)

/-- A uniform rational draw in `[0, 1/2]`, advancing the engine state. -/
def uniformHalf (s : ℕ) : ℚ × ℕ :=
  ((lcgNext s % 1001 : ℕ) / 2000, lcgNext s)

/-- Draw `n` uniform rationals in `[0, 1/2]`, threading the engine state. -/
def drawHalves : ℕ → ℕ → List ℚ × ℕ
  | 0, s => ([], s)
  | n + 1, s =>
    let r := uniformHalf s
    let rest := drawHalves n r.2
    (r.1 :: rest.1, rest.2)

/-- Modelled from the spec: the body of `makeMiningParameters` is not under
`src/`.  Header lines 138-160 and spec §4.7: draw the village count
`V ∈ [5,15]`, set the mine count to `V + 3`, draw a worker count in `[1,5]`
per village, draw a reachable-mine count in `[2,4]` per village forcing the
last village's to `4`, draw a productivity in `[0, 0.5]` per mine, and return
the action space, workers and productivities; a pure function of the seed. -/
def makeMiningParameters (seed : ℕ) : List ℕ × List ℕ × List ℚ :=
  let rv := uniformNat 5 15 seed
  let rw := drawNats 1 5 rv.1 rv.2
  let rc := drawNats 2 4 rv.1 rw.2
  let actionSpace := rc.1.set (rv.1 - 1) 4
  let rp := drawHalves (rv.1 + 3) rc.2
  (actionSpace, rw.1, rp.1)

/-- C7: `makeMiningParameters` is deterministic in its seed: equal seeds give
identical parameter tuples. -/
theorem C7_parameters_deterministic (s1 s2 : ℕ) (h : s1 = s2) :
    makeMiningParameters s1 = makeMiningParameters s2 := by
  rw [h]

/-- Witness for C7 at seed `42`. -/
theorem C7_parameters_deterministic_witness :
    makeMiningParameters 42 = makeMiningParameters 42 :=
  C7_parameters_deterministic 42 42 rfl

theorem uniformNat_bounds (lo hi s : ℕ) (h : lo ≤ hi) :
    lo ≤ (uniformNat lo hi s).1 ∧ (uniformNat lo hi s).1 ≤ hi := by
  unfold uniformNat
  have hmod : lcgNext s % (hi - lo + 1) < hi - lo + 1 :=
    Nat.mod_lt _ (Nat.succ_pos _)
  simp only
  omega

theorem drawNats_succ (lo hi n s : ℕ) :
    drawNats lo hi (n + 1) s =
      ((uniformNat lo hi s).1 :: (drawNats lo hi n (uniformNat lo hi s).2).1,
       (drawNats lo hi n (uniformNat lo hi s).2).2) := rfl

theorem drawNats_spec (lo hi : ℕ) (h : lo ≤ hi) :
    ∀ n s, (drawNats lo hi n s).1.length = n ∧
      ∀ x ∈ (drawNats lo hi n s).1, lo ≤ x ∧ x ≤ hi := by
  intro n
  induction n with
  | zero => intro s; simp [drawNats]
  | succ n ih =>
    intro s
    obtain ⟨h1, h2⟩ := ih (uniformNat lo hi s).2
    rw [drawNats_succ]
    refine ⟨by simp [h1], ?_⟩
    intro x hx
    rw [List.mem_cons] at hx
    cases hx with
    | inl hx => rw [hx]; exact uniformNat_bounds lo hi s h
    | inr hx => exact h2 x hx

theorem uniformHalf_bounds (s : ℕ) :
    0 ≤ (uniformHalf s).1 ∧ (uniformHalf s).1 ≤ 1 / 2 := by
  unfold uniformHalf
  simp only
  constructor
  · positivity
  · rw [div_le_iff₀ (by norm_num : (0 : ℚ) < 2000)]
    have hk : lcgNext s % 1001 < 1001 := Nat.mod_lt _ (by norm_num)
    have : ((lcgNext s % 1001 : ℕ) : ℚ) ≤ 1000 := by
      exact_mod_cast Nat.lt_succ_iff.mp hk
    linarith

theorem drawHalves_succ (n s : ℕ) :
    drawHalves (n + 1) s =
      ((uniformHalf s).1 :: (drawHalves n (uniformHalf s).2).1,
       (drawHalves n (uniformHalf s).2).2) := rfl

theorem drawHalves_spec :
    ∀ n s, (drawHalves n s).1.length = n ∧
      ∀ q ∈ (drawHalves n s).1, 0 ≤ q ∧ q ≤ 1 / 2 := by
  intro n
  induction n with
  | zero => intro s; simp [drawHalves]
  | succ n ih =>
    intro s
    obtain ⟨h1, h2⟩ := ih (uniformHalf s).2
    rw [drawHalves_succ]
    refine ⟨by simp [h1], ?_⟩
    intro q hq
    rw [List.mem_cons] at hq
    cases hq with
    | inl hq => rw [hq]; exact uniformHalf_bounds s
    | inr hq => exact h2 q hq

/-- C8: for every seed the generated parameters satisfy the documented
ranges: `5 ≤ V ≤ 15` villages, `V + 3` mines, every worker count in `[1,5]`,
every village alphabet size in `[2,4]` with the last village's exactly `4`,
and every productivity in `[0, 1/2]`. -/
theorem C8_parameter_ranges (seed : ℕ) :
    5 ≤ (makeMiningParameters seed).1.length ∧
    (makeMiningParameters seed).1.length ≤ 15 ∧
    (makeMiningParameters seed).2.1.length = (makeMiningParameters seed).1.length ∧
    (makeMiningParameters seed).2.2.length = (makeMiningParameters seed).1.length + 3 ∧
    (∀ w ∈ (makeMiningParameters seed).2.1, 1 ≤ w ∧ w ≤ 5) ∧
    (∀ c ∈ (makeMiningParameters seed).1, 2 ≤ c ∧ c ≤ 4) ∧
    (makeMiningParameters seed).1.getD ((makeMiningParameters seed).1.length - 1) 0 = 4 ∧
    ∀ q ∈ (makeMiningParameters seed).2.2, 0 ≤ q ∧ q ≤ 1 / 2 := by
  obtain ⟨hv5, hv15⟩ := uniformNat_bounds 5 15 seed (by norm_num)
  unfold makeMiningParameters
  simp only
  obtain ⟨hwlen, hwelem⟩ :=
    drawNats_spec 1 5 (by norm_num) (uniformNat 5 15 seed).1 (uniformNat 5 15 seed).2
  obtain ⟨hclen, hcelem⟩ :=
    drawNats_spec 2 4 (by norm_num) (uniformNat 5 15 seed).1
      (drawNats 1 5 (uniformNat 5 15 seed).1 (uniformNat 5 15 seed).2).2
  obtain ⟨hplen, hpelem⟩ :=
    drawHalves_spec ((uniformNat 5 15 seed).1 + 3)
      (drawNats 2 4 (uniformNat 5 15 seed).1
        (drawNats 1 5 (uniformNat 5 15 seed).1 (uniformNat 5 15 seed).2).2).2
  have hAlen : ((drawNats 2 4 (uniformNat 5 15 seed).1
      (drawNats 1 5 (uniformNat 5 15 seed).1 (uniformNat 5 15 seed).2).2).1.set
      ((uniformNat 5 15 seed).1 - 1) 4).length = (uniformNat 5 15 seed).1 := by
    rw [List.length_set, hclen]
  refine ⟨?_, ?_, ?_, ?_, hwelem, ?_, ?_, hpelem⟩
  · rw [hAlen]; exact hv5
  · rw [hAlen]; exact hv15
  · rw [hAlen, hwlen]
  · rw [hAlen, hplen]
  · intro c hc
    rcases List.mem_or_eq_of_mem_set hc with hc | rfl
    · exact hcelem c hc
    · exact ⟨by norm_num, le_refl 4⟩
  · rw [hAlen]
    have hlt : (uniformNat 5 15 seed).1 - 1 <
        (drawNats 2 4 (uniformNat 5 15 seed).1
          (drawNats 1 5 (uniformNat 5 15 seed).1 (uniformNat 5 15 seed).2).2).1.length := by
      rw [hclen]; omega
    rw [List.getD_eq_getElem?_getD, List.getElem?_set_self, Option.getD_some]
    exact hlt

theorem partialWorkers_restrict (b : MiningBandit) (a : List ℕ) (m : ℕ)
    (ha : ∀ i < b.numVillages, a.getD i 0 < b.A.getD i 0) :
    b.partialWorkers (b.villagesPerMine_ m) (restrictAction a (b.villagesPerMine_ m)) m =
      b.workersAtMine a m := by
  unfold MiningBandit.partialWorkers MiningBandit.workersAtMine restrictAction
  rw [← List.map_prod_left_eq_zip, List.filter_map, List.map_map]
  unfold MiningBandit.villagesPerMine_
  rw [List.filter_filter]
  have hfil : ∀ i ∈ List.range b.numVillages,
      (((fun p : ℕ × ℕ => decide (p.1 + p.2 = m)) ∘ fun x => (x, a.getD x 0)) i &&
        decide (i ≤ m ∧ m < i + b.A.getD i 0)) =
        decide (i + a.getD i 0 = m) := by
    intro i hi
    have hiV : i < b.numVillages := List.mem_range.mp hi
    have hco : (((fun p : ℕ × ℕ => decide (p.1 + p.2 = m)) ∘ fun x => (x, a.getD x 0)) i) =
        decide (i + a.getD i 0 = m) := rfl
    rw [hco, ← Bool.decide_and, decide_eq_decide]
    constructor
    · exact fun h => h.1
    · intro hr
      refine ⟨hr, le_of_add_le_left (le_of_eq hr), ?_⟩
      rw [← hr]
      exact Nat.add_lt_add_left (ha i hiV) i
  rw [List.filter_congr hfil]
  rfl

theorem matchingRules_eq (b : MiningBandit) (a : List ℕ) (m : ℕ)
    (ha : a ∈ jointActions b.A) :
    b.matchingRules a m =
      [⟨b.villagesPerMine_ m, restrictAction a (b.villagesPerMine_ m),
        miningOutput (b.productivityPerMine_.getD m 0) (b.workersAtMine a m)⟩] := by
  obtain ⟨-, hbound⟩ := (mem_jointActions_iff b.A a).mp ha
  unfold MiningBandit.matchingRules MiningBandit.rulesForMine
  rw [List.filter_map]
  have hsing : (partialActions b.A (b.villagesPerMine_ m)).filter
      (fun pa => decide (pa = restrictAction a (b.villagesPerMine_ m))) =
      [restrictAction a (b.villagesPerMine_ m)] := by
    apply filter_eq_singleton_of_nodup
    · rw [partialActions_eq_jointActions]
      exact jointActions_nodup _
    · apply restrictAction_mem_partialActions
      intro i hiG
      have hiV : i < b.numVillages := by
        have hmem := List.mem_of_mem_filter hiG
        exact List.mem_range.mp hmem
      exact hbound i hiV
  have hpred : ∀ pa ∈ partialActions b.A (b.villagesPerMine_ m),
      ((fun r : QFunctionRule => decide (r.action = restrictAction a r.agents)) ∘
        fun pa => (⟨b.villagesPerMine_ m, pa,
          miningOutput (b.productivityPerMine_.getD m 0)
            (b.partialWorkers (b.villagesPerMine_ m) pa m)⟩ : QFunctionRule)) pa =
      (fun pa => decide (pa = restrictAction a (b.villagesPerMine_ m))) pa := by
    intro pa _
    rfl
  rw [List.filter_congr hpred, hsing]
  simp only [List.map_cons, List.map_nil]
  rw [partialWorkers_restrict b a m (fun i hi => hbound i hi)]

/-- C3: for every valid joint action, each mine has exactly one exported rule
matching the action's restriction to its connected villages, and the values
of those matching rules summed over the mines equal
`rewardNorm_ - getRegret a`, the total deterministic output used internally
by `getRegret`. -/
theorem C3_rules_refine_regret (b : MiningBandit) (a : List ℕ)
    (ha : a ∈ jointActions b.A) :
    b.getDeterministicRules = (List.range b.numMines).flatMap b.rulesForMine ∧
    (∀ m < b.numMines, (b.matchingRules a m).length = 1) ∧
    ((List.range b.numMines).map fun m =>
        ((b.matchingRules a m).map QFunctionRule.value).sum).sum =
      b.rewardNorm_ - b.getRegret a := by
  refine ⟨rfl, ?_, ?_⟩
  · intro m _
    rw [matchingRules_eq b a m ha]
    rfl
  · have hmap : ((List.range b.numMines).map fun m =>
        ((b.matchingRules a m).map QFunctionRule.value).sum) =
        (List.range b.numMines).map fun m =>
          miningOutput (b.productivityPerMine_.getD m 0) (b.workersAtMine a m) := by
      apply List.map_congr_left
      intro m _
      rw [matchingRules_eq b a m ha]
      simp
    rw [hmap]
    show b.totalOutput a = b.rewardNorm_ - b.getRegret a
    unfold MiningBandit.getRegret
    ring

/-- Witness for C3 on the spec §8 example instance at action `[2, 0]`. -/
theorem C3_rules_refine_regret_witness :
    bex.getDeterministicRules = (List.range bex.numMines).flatMap bex.rulesForMine ∧
    (∀ m < bex.numMines, (bex.matchingRules [2, 0] m).length = 1) ∧
    ((List.range bex.numMines).map fun m =>
        ((bex.matchingRules [2, 0] m).map QFunctionRule.value).sum).sum =
      bex.rewardNorm_ - bex.getRegret [2, 0] :=
  C3_rules_refine_regret bex [2, 0] (by decide)

end Mining
